import Mathlib

/-!
Verification of the future/view module of `foundationdb-rs`
(`src/foundationdb/src/future.rs`), as a shallow embedding in Lean 4.

The module bridges the FoundationDB C API's callback/poll completion
primitive (`FDBFuture*`) into a native future (`FdbFuture<T>`), and exposes
the payloads as zero-copy views (`FdbSlice`, `FdbAddresses`, `FdbKeys`,
`FdbValues`, `MappedKeyValues`) and shared-ownership iterators
(`FdbValuesIter`, `FdbMappedValuesIter`).

Foreign (C API) calls are modelled by passing their outputs in as explicit
data; raw pointers are modelled as natural-number addresses; the Rust `i32`
fields are modelled as `Int` with the `as usize` / `as i32` casts made
explicit.  Panics (`expect`, assertion failures) are modelled as explicit
fault outcomes.
-/

namespace FdbRs

/-- A task identifier, modelling the waker of a `Context` (`cx.waker()`). -/
abbrev Task := Nat

/-- A foreign future handle identity, modelling the `NonNull<fdb_sys::FDBFuture>`
pointer wrapped by `FdbFutureHandle`. -/
abbrev Handle := Nat

/-- Rust `i32` value cast `as usize` (sign-extension to 64 bits, then
reinterpretation): for `x` in the `i32` range the result is `x mod 2^64`. -/
def usizeOfI32 (x : Int) : Nat := (x % 2 ^ 64).toNat

/-- Rust `usize` value cast `as i32` (truncation to 32 bits, reinterpreted
as two's-complement signed). -/
def i32OfUsize (n : Nat) : Int :=
  let m : Nat := n % 2 ^ 32
  if m < 2 ^ 31 then (m : Int) else (m : Int) - 2 ^ 32

/-- Rust `usize::checked_add`. -/
def usizeCheckedAdd (a b : Nat) : Option Nat :=
  if a + b < 2 ^ 64 then some (a + b) else none

/-- The structured error type (`FdbError`), carrying its stable numeric code. -/
structure FdbError where
  code : Int
deriving DecidableEq, Repr

/-- Modelled from the spec: `error::eval` lives in `error.rs`, which is not
part of the provided sources.  Per the spec's error-handling design, a foreign
status code is "translated into a structured error value with a stable numeric
code"; a zero code is success. -/
def error.eval (code : Int) : Except FdbError Unit :=
  if code = 0 then Except.ok () else Except.error ⟨code⟩

/-- The wake cell: `Arc<AtomicWaker>`.  `registered` is the currently stored
wake target (`AtomicWaker.register` overwrites it). -/
structure WakeCell where
  registered : Option Task
deriving DecidableEq, Repr

/-- The bridge state: the `f` and `waker` fields of `FdbFuture<T>`.
`f = none` is the terminal state, after the handle was consumed by
extraction. -/
structure FdbFuture where
  f : Option Handle
  waker : Option WakeCell
deriving DecidableEq, Repr

/-- `FdbFuture::new`: wraps a foreign handle, with no wake cell yet. -/
def FdbFuture.new (h : Handle) : FdbFuture :=
  { f := some h, waker := none }

/-- Outcome of one `poll` call.  `fault` models the panic of
`self.f.as_ref().expect("cannot poll after resolve")`. -/
inductive Poll (α : Type)
  | fault
  | pending
  | ready (r : Except FdbError α)

/-- Observable foreign calls that transfer or release resources. -/
inductive Event
  | setCallback
  | futureDestroy
deriving DecidableEq, Repr

/-- Number of `fdb_future_destroy` calls in an event trace. -/
def countDestroy : List Event → Nat
  | [] => 0
  | Event.futureDestroy :: es => countDestroy es + 1
  | _ :: es => countDestroy es

/-- `FdbFuture::poll`.  The outputs of the foreign calls
`fdb_future_is_ready` and `fdb_future_get_error` are passed in as `isReady`
and `getError`; `extract` models `T::try_from` on the consumed handle; `cx`
is the current task.  Returns the poll outcome, the new bridge state, and
the foreign calls made.
* `self.f` empty: panic (`expect("cannot poll after resolve")`).
* not ready: `get_or_insert_with` creates the wake cell only if absent,
  `waker.register(cx.waker())` overwrites the stored target, and only when
  the cell was just created is `fdb_future_set_callback` invoked (with a
  strong reference to the cell); returns `Pending`.
* ready: `error::eval(fdb_future_get_error(..))`; a non-zero status
  short-circuits `and_then`, leaving `self.f` in place; on success
  `self.f.take()` empties the slot and the handle is passed to `T::try_from`. -/
def FdbFuture.poll (isReady : Int) (getError : Int)
    (extract : Handle → Except FdbError α) (cx : Task) (s : FdbFuture) :
    Poll α × FdbFuture × List Event :=
  match s.f with
  | none => (Poll.fault, s, [])
  | some fh =>
    if isReady = 0 then
      match s.waker with
      | some _ => (Poll.pending, { s with waker := some ⟨some cx⟩ }, [])
      | none => (Poll.pending, { s with waker := some ⟨some cx⟩ }, [Event.setCallback])
    else
      match error.eval getError with
      | Except.error e => (Poll.ready (Except.error e), s, [])
      | Except.ok () => (Poll.ready (extract fh), { s with f := none }, [])

/-- Model of `impl TryFrom<FdbFutureHandle> for ()`: always `Ok(())`. -/
def unitTryFrom : Handle → Except FdbError Unit := fun _ => Except.ok ()

/-- The foreign outputs and the task for one poll of the bridge. -/
structure PollInput where
  isReady : Int
  getError : Int
  cx : Task
deriving DecidableEq, Repr

/-- Runs a sequence of polls, collecting the final state, the concatenated
event trace and the list of poll outcomes. -/
def FdbFuture.runPolls (extract : Handle → Except FdbError α) :
    List PollInput → FdbFuture → FdbFuture × List Event × List (Poll α)
  | [], s => (s, [], [])
  | i :: is, s =>
    let pr := FdbFuture.poll i.isReady i.getError extract i.cx s
    let rr := FdbFuture.runPolls extract is pr.2.1
    (rr.1, pr.2.2 ++ rr.2.1, pr.1 :: rr.2.2)

/-- `Drop for FdbFuture<T>` (derived): dropping the bridge drops its fields;
if the handle slot is still occupied, `Drop for FdbFutureHandle` runs
`fdb_future_destroy` on it (which also cancels a still-pending operation);
dropping the `Option<Arc<AtomicWaker>>` makes no foreign call. -/
def FdbFuture.dropEvents (s : FdbFuture) : List Event :=
  match s.f with
  | some _ => [Event.futureDestroy]
  | none => []

/-! ## Result views -/

/-- Outputs written by `fdb_future_get_value`: the returned status code, the
present/absent discriminant, and the pointer and length of the buffer. -/
structure GetValueOut where
  err : Int
  present : Int
  value : Nat
  len : Int
deriving DecidableEq, Repr

/-- `FdbSlice`: a byte buffer owned by the future.  `f` is the owned
`FdbFutureHandle`; `value` and `len` are the raw pointer and length. -/
structure FdbSlice where
  f : Handle
  value : Nat
  len : Int
deriving DecidableEq, Repr

/-- `impl TryFrom<FdbFutureHandle> for Option<FdbSlice>`: calls
`fdb_future_get_value` (its outputs are the `out` argument); a non-zero
status becomes the structured error; otherwise `present == 0` yields `None`
and anything else yields `Some` slice owning the handle. -/
def FdbSlice.opt_try_from (f : Handle) (out : GetValueOut) :
    Except FdbError (Option FdbSlice) :=
  match error.eval out.err with
  | Except.error e => Except.error e
  | Except.ok () =>
    Except.ok
      (if out.present = 0 then none
       else some { f := f, value := out.value, len := out.len })

/-- Outputs written by `fdb_future_get_keyvalue_array` (and by
`fdb_future_get_mappedkeyvalue_array`, which has the same shape): status
code, pointer to the first record, record count, and the raw continuation
flag. -/
structure KeyvalueArrayOut where
  err : Int
  keyvalues : Nat
  len : Int
  more : Int
deriving DecidableEq, Repr

/-- `FdbValues`: a key-value array owned by the future. -/
structure FdbValues where
  f : Handle
  keyvalues : Nat
  len : Int
  more : Bool
deriving DecidableEq, Repr

/-- `impl TryFrom<FdbFutureHandle> for FdbValues`: calls
`fdb_future_get_keyvalue_array` and stores `more: more != 0`. -/
def FdbValues.try_from (f : Handle) (out : KeyvalueArrayOut) :
    Except FdbError FdbValues :=
  match error.eval out.err with
  | Except.error e => Except.error e
  | Except.ok () =>
    Except.ok
      { f := f, keyvalues := out.keyvalues, len := out.len,
        more := decide (out.more ≠ 0) }

/-- `MappedKeyValues`: a mapped key-value array owned by the future
(`fdb710` module). -/
structure MappedKeyValues where
  f : Handle
  mapped_keyvalues : Nat
  len : Int
  more : Bool
deriving DecidableEq, Repr

/-- `impl TryFrom<FdbFutureHandle> for MappedKeyValues`: calls
`fdb_future_get_mappedkeyvalue_array` and stores `more: more != 0`. -/
def MappedKeyValues.try_from (f : Handle) (out : KeyvalueArrayOut) :
    Except FdbError MappedKeyValues :=
  match error.eval out.err with
  | Except.error e => Except.error e
  | Except.ok () =>
    Except.ok
      { f := f, mapped_keyvalues := out.keyvalues, len := out.len,
        more := decide (out.more ≠ 0) }

/-- `FdbAddresses`: an address (string pointer) array owned by the future. -/
structure FdbAddresses where
  f : Handle
  strings : Nat
  len : Int
deriving DecidableEq, Repr

/-- `FdbKeys`: a key array owned by the future (`fdb700` module). -/
structure FdbKeys where
  f : Handle
  keys : Nat
  len : Int
deriving DecidableEq, Repr

/-- The size and alignment of an element type, as compared by the
`assert_eq_size!` and `assert_eq_align!` guards. -/
structure Layout where
  size : Nat
  align : Nat
deriving DecidableEq, Repr

/-- Outcome of a `Deref` impl that reinterprets a foreign array: either the
layout assertions hard-fail, or a slice of the local element type is
produced from the raw pointer and the `len as usize` element count. -/
inductive DerefResult
  | layoutFault
  | slice (ptr : Nat) (len : Nat)
deriving DecidableEq, Repr

/-- `impl Deref for FdbValues`: `assert_eq_size!(FdbKeyValue, fdb_sys::FDBKeyValue)`
then `assert_eq_align!`, then `slice::from_raw_parts(self.keyvalues, self.len as usize)`
reinterpreted as `[FdbKeyValue]`.  `localL`/`foreignL` are the layouts of
`FdbKeyValue` and `fdb_sys::FDBKeyValue`. -/
def FdbValues.deref (localL foreignL : Layout) (v : FdbValues) : DerefResult :=
  if localL.size = foreignL.size then
    if localL.align = foreignL.align then
      DerefResult.slice v.keyvalues (usizeOfI32 v.len)
    else DerefResult.layoutFault
  else DerefResult.layoutFault

/-- `impl Deref for FdbAddresses`: layout assertions for
`(FdbAddress, *const c_char)`, then the reinterpreted slice. -/
def FdbAddresses.deref (localL foreignL : Layout) (a : FdbAddresses) : DerefResult :=
  if localL.size = foreignL.size then
    if localL.align = foreignL.align then
      DerefResult.slice a.strings (usizeOfI32 a.len)
    else DerefResult.layoutFault
  else DerefResult.layoutFault

/-- `impl Deref for FdbKeys`: layout assertions for
`(FdbKey, fdb_sys::FDBKey)`, then the reinterpreted slice. -/
def FdbKeys.deref (localL foreignL : Layout) (k : FdbKeys) : DerefResult :=
  if localL.size = foreignL.size then
    if localL.align = foreignL.align then
      DerefResult.slice k.keys (usizeOfI32 k.len)
    else DerefResult.layoutFault
  else DerefResult.layoutFault

/-- `impl Deref for MappedKeyValues`: layout assertions for
`(FdbMappedKeyValue, fdb_sys::FDBMappedKeyValue)`, then the reinterpreted
slice. -/
def MappedKeyValues.deref (localL foreignL : Layout) (m : MappedKeyValues) : DerefResult :=
  if localL.size = foreignL.size then
    if localL.align = foreignL.align then
      DerefResult.slice m.mapped_keyvalues (usizeOfI32 m.len)
    else DerefResult.layoutFault
  else DerefResult.layoutFault

/-! ## Shared-ownership iterators

`FdbValuesIter` holds `f: Arc<FdbFutureHandle>`, the base pointer
`keyvalues`, and the `i32` fields `len` and `pos`.  A yielded `FdbValue`
stores a clone of the `Arc` plus the row pointer `keyvalues.add(i)`; we
model a yielded element by its row index `i` (the offset added to the base
pointer).  Only `len` and `pos` evolve, so they form the iterator state. -/

/-- The mutable state of `FdbValuesIter`: its `len` and `pos` fields. -/
structure FdbValuesIter where
  len : Int
  pos : Int
deriving DecidableEq, Repr

/-- `impl IntoIterator for FdbValues`: starts at `pos: 0` with the view's
`len`. -/
def FdbValues.into_iter (v : FdbValues) : FdbValuesIter :=
  { len := v.len, pos := 0 }

/-- `ExactSizeIterator::len` for `FdbValuesIter`:
`(self.len - self.pos) as usize`.  (Named `len'` because `len` is the
field name.) -/
def FdbValuesIter.len' (it : FdbValuesIter) : Nat :=
  usizeOfI32 (it.len - it.pos)

/-- `Iterator::size_hint` for `FdbValuesIter`:
`let rem = (self.len - self.pos) as usize; (rem, Some(rem))`. -/
def FdbValuesIter.size_hint (it : FdbValuesIter) : Nat × Option Nat :=
  let rem : Nat := usizeOfI32 (it.len - it.pos)
  (rem, some rem)

/-- `Iterator::nth` for `FdbValuesIter`: `(self.pos as usize).checked_add(n)`;
if the sum exists and is `< self.len as usize`, yield the row at that index
and set `self.pos = pos as i32 + 1`; otherwise set `self.pos = self.len`
and yield nothing. -/
def FdbValuesIter.nth (it : FdbValuesIter) (n : Nat) : Option Nat × FdbValuesIter :=
  match usizeCheckedAdd (usizeOfI32 it.pos) n with
  | some p =>
    if p < usizeOfI32 it.len then
      (some p, { it with pos := i32OfUsize p + 1 })
    else (none, { it with pos := it.len })
  | none => (none, { it with pos := it.len })

/-- `Iterator::next` for `FdbValuesIter`: `self.nth(0)`. -/
def FdbValuesIter.next (it : FdbValuesIter) : Option Nat × FdbValuesIter :=
  it.nth 0

/-- `DoubleEndedIterator::nth_back` for `FdbValuesIter`: if `n < self.len()`,
`self.len -= 1 + n as i32` and yield the row at the new `self.len as usize`;
otherwise set `self.pos = self.len` and yield nothing. -/
def FdbValuesIter.nth_back (it : FdbValuesIter) (n : Nat) : Option Nat × FdbValuesIter :=
  if n < it.len' then
    let len : Int := it.len - (1 + i32OfUsize n)
    (some (usizeOfI32 len), { it with len := len })
  else
    (none, { it with pos := it.len })

/-- `DoubleEndedIterator::next_back` for `FdbValuesIter`: `self.nth_back(0)`. -/
def FdbValuesIter.next_back (it : FdbValuesIter) : Option Nat × FdbValuesIter :=
  it.nth_back 0

/-- Repeatedly calls `next`, collecting the yielded row indices until `None`
(`fuel` bounds the number of calls). -/
def forwardCollect : Nat → FdbValuesIter → List Nat
  | 0, _ => []
  | fuel + 1, it =>
    match it.next with
    | (some i, it') => i :: forwardCollect fuel it'
    | (none, _) => []

/-- Repeatedly calls `next_back`, collecting the yielded row indices until
`None`. -/
def backwardCollect : Nat → FdbValuesIter → List Nat
  | 0, _ => []
  | fuel + 1, it =>
    match it.next_back with
    | (some i, it') => i :: backwardCollect fuel it'
    | (none, _) => []

/-- One iterator operation: `nth n` (with `next = nth 0`) or `nth_back n`
(with `next_back = nth_back 0`). -/
inductive IterOp
  | fwd (n : Nat)
  | bwd (n : Nat)
deriving DecidableEq, Repr

/-- Runs a sequence of iterator operations, returning the final state
together with the number of elements consumed from the front and from the
back.  An op with argument `n` on a state with `r` remaining elements
consumes `min (n + 1) r` of them (all `n + 1` skipped-plus-yielded rows on
success, the whole remainder on exhaustion). -/
def runOps : List IterOp → FdbValuesIter → FdbValuesIter × Nat × Nat
  | [], it => (it, 0, 0)
  | IterOp.fwd n :: ops, it =>
    let r := runOps ops (it.nth n).2
    (r.1, min (n + 1) it.len' + r.2.1, r.2.2)
  | IterOp.bwd n :: ops, it =>
    let r := runOps ops (it.nth_back n).2
    (r.1, r.2.1, min (n + 1) it.len' + r.2.2)

/-- The mutable state of `FdbMappedValuesIter` (`fdb710` module): its `len`
and `pos` fields.  Its `Iterator`, `ExactSizeIterator` and
`DoubleEndedIterator` impls are textually the same as `FdbValuesIter`'s,
yielding `FdbMappedValue` rows. -/
structure FdbMappedValuesIter where
  len : Int
  pos : Int
deriving DecidableEq, Repr

/-- `impl IntoIterator for MappedKeyValues`: starts at `pos: 0`. -/
def MappedKeyValues.into_iter (m : MappedKeyValues) : FdbMappedValuesIter :=
  { len := m.len, pos := 0 }

/-- `ExactSizeIterator::len` for `FdbMappedValuesIter`. -/
def FdbMappedValuesIter.len' (it : FdbMappedValuesIter) : Nat :=
  usizeOfI32 (it.len - it.pos)

/-- `Iterator::size_hint` for `FdbMappedValuesIter`. -/
def FdbMappedValuesIter.size_hint (it : FdbMappedValuesIter) : Nat × Option Nat :=
  let rem : Nat := usizeOfI32 (it.len - it.pos)
  (rem, some rem)

/-- `Iterator::nth` for `FdbMappedValuesIter` (same body as
`FdbValuesIter::nth`). -/
def FdbMappedValuesIter.nth (it : FdbMappedValuesIter) (n : Nat) :
    Option Nat × FdbMappedValuesIter :=
  match usizeCheckedAdd (usizeOfI32 it.pos) n with
  | some p =>
    if p < usizeOfI32 it.len then
      (some p, { it with pos := i32OfUsize p + 1 })
    else (none, { it with pos := it.len })
  | none => (none, { it with pos := it.len })

/-- `Iterator::next` for `FdbMappedValuesIter`: `self.nth(0)`. -/
def FdbMappedValuesIter.next (it : FdbMappedValuesIter) :
    Option Nat × FdbMappedValuesIter :=
  it.nth 0

/-- `DoubleEndedIterator::nth_back` for `FdbMappedValuesIter` (same body as
`FdbValuesIter::nth_back`). -/
def FdbMappedValuesIter.nth_back (it : FdbMappedValuesIter) (n : Nat) :
    Option Nat × FdbMappedValuesIter :=
  if n < it.len' then
    let len : Int := it.len - (1 + i32OfUsize n)
    (some (usizeOfI32 len), { it with len := len })
  else
    (none, { it with pos := it.len })

/-- `DoubleEndedIterator::next_back` for `FdbMappedValuesIter`. -/
def FdbMappedValuesIter.next_back (it : FdbMappedValuesIter) :
    Option Nat × FdbMappedValuesIter :=
  it.nth_back 0

/-- `forwardCollect` for the mapped iterator. -/
def forwardCollectM : Nat → FdbMappedValuesIter → List Nat
  | 0, _ => []
  | fuel + 1, it =>
    match it.next with
    | (some i, it') => i :: forwardCollectM fuel it'
    | (none, _) => []

/-- `backwardCollect` for the mapped iterator. -/
def backwardCollectM : Nat → FdbMappedValuesIter → List Nat
  | 0, _ => []
  | fuel + 1, it =>
    match it.next_back with
    | (some i, it') => i :: backwardCollectM fuel it'
    | (none, _) => []

/-- `runOps` for the mapped iterator. -/
def runOpsM : List IterOp → FdbMappedValuesIter → FdbMappedValuesIter × Nat × Nat
  | [], it => (it, 0, 0)
  | IterOp.fwd n :: ops, it =>
    let r := runOpsM ops (it.nth n).2
    (r.1, min (n + 1) it.len' + r.2.1, r.2.2)
  | IterOp.bwd n :: ops, it =>
    let r := runOpsM ops (it.nth_back n).2
    (r.1, r.2.1, min (n + 1) it.len' + r.2.2)

/-! ## Iterator lemmas -/

theorem usizeOfI32_of_range (x : Int) (h0 : 0 ≤ x) (h1 : x < 2 ^ 31) :
    usizeOfI32 x = x.toNat := by
  unfold usizeOfI32
  have h64 : (2 : Int) ^ 64 = 18446744073709551616 := by norm_num
  rw [h64]
  omega

theorem i32OfUsize_of_small (n : Nat) (h : n < 2 ^ 31) :
    i32OfUsize n = (n : Int) := by
  simp only [i32OfUsize]
  rw [Nat.mod_eq_of_lt (by omega), if_pos (by omega)]

/-- Under the iterator invariant (`0 ≤ pos ≤ len < 2^31`), the reported
exact length is the mathematical remaining count. -/
theorem FdbValuesIter.len'_eq (it : FdbValuesIter) (h1 : 0 ≤ it.pos)
    (h2 : it.pos ≤ it.len) (h3 : it.len < 2 ^ 31) :
    it.len' = (it.len - it.pos).toNat := by
  unfold FdbValuesIter.len' usizeOfI32
  have h64 : (2 : Int) ^ 64 = 18446744073709551616 := by norm_num
  rw [h64]
  omega

/-- `nth n` when at least `n + 1` elements remain: yields the row at offset
`pos + n` and advances the forward cursor past it. -/
theorem FdbValuesIter.nth_yield (it : FdbValuesIter) (n : Nat)
    (h1 : 0 ≤ it.pos) (h2 : it.pos ≤ it.len) (h3 : it.len < 2 ^ 31)
    (hn : (n : Int) < it.len - it.pos) :
    it.nth n = (some (it.pos.toNat + n), ⟨it.len, it.pos + n + 1⟩) := by
  unfold FdbValuesIter.nth
  rw [usizeOfI32_of_range it.pos h1 (by omega)]
  rw [show usizeCheckedAdd it.pos.toNat n = some (it.pos.toNat + n) by
    unfold usizeCheckedAdd; rw [if_pos (by omega)]]
  dsimp only
  rw [usizeOfI32_of_range it.len (by omega) h3]
  rw [if_pos (by omega)]
  rw [i32OfUsize_of_small (it.pos.toNat + n) (by omega)]
  simp only [Prod.mk.injEq, FdbValuesIter.mk.injEq, Option.some.injEq,
    true_and, and_true]
  omega

/-- `nth n` when fewer than `n + 1` elements remain: yields nothing and
moves the forward cursor to the end. -/
theorem FdbValuesIter.nth_exhaust (it : FdbValuesIter) (n : Nat)
    (h1 : 0 ≤ it.pos) (h2 : it.pos ≤ it.len) (h3 : it.len < 2 ^ 31)
    (hn : it.len - it.pos ≤ (n : Int)) :
    it.nth n = (none, ⟨it.len, it.len⟩) := by
  unfold FdbValuesIter.nth
  rw [usizeOfI32_of_range it.pos h1 (by omega)]
  by_cases hc : it.pos.toNat + n < 2 ^ 64
  · rw [show usizeCheckedAdd it.pos.toNat n = some (it.pos.toNat + n) by
      unfold usizeCheckedAdd; rw [if_pos hc]]
    dsimp only
    rw [usizeOfI32_of_range it.len (by omega) h3]
    rw [if_neg (by omega)]
  · rw [show usizeCheckedAdd it.pos.toNat n = none by
      unfold usizeCheckedAdd; rw [if_neg hc]]

/-- `nth_back n` when at least `n + 1` elements remain: trims the logical
length by `n + 1` and yields the row at the new end. -/
theorem FdbValuesIter.nth_back_yield (it : FdbValuesIter) (n : Nat)
    (h1 : 0 ≤ it.pos) (h2 : it.pos ≤ it.len) (h3 : it.len < 2 ^ 31)
    (hn : (n : Int) < it.len - it.pos) :
    it.nth_back n =
      (some ((it.len - 1 - n).toNat), ⟨it.len - (1 + n), it.pos⟩) := by
  simp only [FdbValuesIter.nth_back]
  rw [FdbValuesIter.len'_eq it h1 h2 h3, if_pos (by omega)]
  rw [i32OfUsize_of_small n (by omega)]
  rw [usizeOfI32_of_range (it.len - (1 + n)) (by omega) (by omega)]
  simp only [Prod.mk.injEq, FdbValuesIter.mk.injEq, Option.some.injEq,
    true_and, and_true]
  omega

/-- `nth_back n` when fewer than `n + 1` elements remain: yields nothing
and moves the forward cursor to the end. -/
theorem FdbValuesIter.nth_back_exhaust (it : FdbValuesIter) (n : Nat)
    (h1 : 0 ≤ it.pos) (h2 : it.pos ≤ it.len) (h3 : it.len < 2 ^ 31)
    (hn : it.len - it.pos ≤ (n : Int)) :
    it.nth_back n = (none, ⟨it.len, it.len⟩) := by
  simp only [FdbValuesIter.nth_back]
  rw [FdbValuesIter.len'_eq it h1 h2 h3, if_neg (by omega)]

/-- Repeated `next` yields exactly the remaining offsets in array order. -/
theorem forwardCollect_range' :
    ∀ (fuel : Nat) (it : FdbValuesIter), 0 ≤ it.pos → it.pos ≤ it.len →
      it.len < 2 ^ 31 → (it.len - it.pos).toNat ≤ fuel →
      forwardCollect fuel it = List.range' it.pos.toNat (it.len - it.pos).toNat
  | 0, it, h1, h2, h3, hf => by
    have h0 : (it.len - it.pos).toNat = 0 := by omega
    rw [h0]
    rfl
  | fuel + 1, it, h1, h2, h3, hf => by
    by_cases hlt : it.pos < it.len
    · have hnext : it.next = (some it.pos.toNat, ⟨it.len, it.pos + 1⟩) := by
        unfold FdbValuesIter.next
        rw [FdbValuesIter.nth_yield it 0 h1 h2 h3 (by omega)]
        simp
      have ih := forwardCollect_range' fuel ⟨it.len, it.pos + 1⟩
        (show (0 : Int) ≤ it.pos + 1 by omega)
        (show it.pos + 1 ≤ it.len by omega) h3
        (show (it.len - (it.pos + 1)).toNat ≤ fuel by omega)
      simp only [forwardCollect]
      rw [hnext]
      dsimp only
      rw [ih]
      have e1 : (it.len - it.pos).toNat = (it.len - (it.pos + 1)).toNat + 1 := by
        omega
      have e2 : ((it.pos + 1 : Int)).toNat = it.pos.toNat + 1 := by omega
      rw [e1, List.range'_succ, e2]
    · have hnone : it.next = (none, ⟨it.len, it.len⟩) := by
        unfold FdbValuesIter.next
        exact FdbValuesIter.nth_exhaust it 0 h1 h2 h3 (by omega)
      have h0 : (it.len - it.pos).toNat = 0 := by omega
      simp only [forwardCollect]
      rw [hnone, h0]
      rfl

/-- Repeated `next_back` yields exactly the remaining offsets in reverse
array order. -/
theorem backwardCollect_range'_rev :
    ∀ (fuel : Nat) (it : FdbValuesIter), 0 ≤ it.pos → it.pos ≤ it.len →
      it.len < 2 ^ 31 → (it.len - it.pos).toNat ≤ fuel →
      backwardCollect fuel it =
        (List.range' it.pos.toNat (it.len - it.pos).toNat).reverse
  | 0, it, h1, h2, h3, hf => by
    have h0 : (it.len - it.pos).toNat = 0 := by omega
    rw [h0]
    rfl
  | fuel + 1, it, h1, h2, h3, hf => by
    by_cases hlt : it.pos < it.len
    · have hnext : it.next_back = (some ((it.len - 1).toNat), ⟨it.len - 1, it.pos⟩) := by
        unfold FdbValuesIter.next_back
        rw [FdbValuesIter.nth_back_yield it 0 h1 h2 h3 (by omega)]
        norm_num
      have ih := backwardCollect_range'_rev fuel ⟨it.len - 1, it.pos⟩
        (show (0 : Int) ≤ it.pos by omega)
        (show it.pos ≤ it.len - 1 by omega)
        (show it.len - 1 < 2 ^ 31 by omega)
        (show ((it.len - 1) - it.pos).toNat ≤ fuel by omega)
      simp only [backwardCollect]
      rw [hnext]
      dsimp only
      rw [ih]
      have e1 : (it.len - it.pos).toNat = ((it.len - 1) - it.pos).toNat + 1 := by
        omega
      rw [e1, List.range'_1_concat, List.reverse_append]
      have e2 : it.pos.toNat + ((it.len - 1) - it.pos).toNat = (it.len - 1).toNat := by
        omega
      rw [e2]
      rfl
    · have hnone : it.next_back = (none, ⟨it.len, it.len⟩) := by
        unfold FdbValuesIter.next_back
        exact FdbValuesIter.nth_back_exhaust it 0 h1 h2 h3 (by omega)
      have h0 : (it.len - it.pos).toNat = 0 := by omega
      simp only [backwardCollect]
      rw [hnone, h0]
      rfl

/-- After any interleaving of `nth`/`nth_back` the invariant
`0 ≤ pos ≤ len < 2^31` is preserved, the consumption counters sum to at
most the initial remaining count, and the remaining count is the initial
one minus both counters. -/
theorem runOps_spec :
    ∀ (ops : List IterOp) (it : FdbValuesIter), 0 ≤ it.pos → it.pos ≤ it.len →
      it.len < 2 ^ 31 →
      (0 ≤ (runOps ops it).1.pos ∧ (runOps ops it).1.pos ≤ (runOps ops it).1.len ∧
        (runOps ops it).1.len < 2 ^ 31) ∧
      (runOps ops it).2.1 + (runOps ops it).2.2 ≤ (it.len - it.pos).toNat ∧
      ((runOps ops it).1.len - (runOps ops it).1.pos).toNat =
        (it.len - it.pos).toNat - ((runOps ops it).2.1 + (runOps ops it).2.2)
  | [], it, h1, h2, h3 => by
    simp only [runOps]
    omega
  | IterOp.fwd n :: ops, it, h1, h2, h3 => by
    simp only [runOps]
    rw [FdbValuesIter.len'_eq it h1 h2 h3]
    by_cases hlt : (n : Int) < it.len - it.pos
    · rw [FdbValuesIter.nth_yield it n h1 h2 h3 hlt]
      have ih := runOps_spec ops ⟨it.len, it.pos + n + 1⟩
        (show (0 : Int) ≤ it.pos + n + 1 by omega)
        (show it.pos + n + 1 ≤ it.len by omega) h3
      dsimp only at ih ⊢
      omega
    · rw [FdbValuesIter.nth_exhaust it n h1 h2 h3 (by omega)]
      have ih := runOps_spec ops ⟨it.len, it.len⟩
        (show (0 : Int) ≤ it.len by omega)
        (show (it.len : Int) ≤ it.len by omega) h3
      dsimp only at ih ⊢
      omega
  | IterOp.bwd n :: ops, it, h1, h2, h3 => by
    simp only [runOps]
    rw [FdbValuesIter.len'_eq it h1 h2 h3]
    by_cases hlt : (n : Int) < it.len - it.pos
    · rw [FdbValuesIter.nth_back_yield it n h1 h2 h3 hlt]
      have ih := runOps_spec ops ⟨it.len - (1 + n), it.pos⟩ h1
        (show it.pos ≤ it.len - (1 + n) by omega)
        (show it.len - (1 + n) < 2 ^ 31 by omega)
      dsimp only at ih ⊢
      omega
    · rw [FdbValuesIter.nth_back_exhaust it n h1 h2 h3 (by omega)]
      have ih := runOps_spec ops ⟨it.len, it.len⟩
        (show (0 : Int) ≤ it.len by omega)
        (show (it.len : Int) ≤ it.len by omega) h3
      dsimp only at ih ⊢
      omega

/-! ## Iterator lemmas, mapped variant

The `fdb710` mapped iterator's trait impls are textually identical to the
plain ones, so the lemmas and proofs repeat with the mapped state type. -/

theorem FdbMappedValuesIter.len'_eqM (it : FdbMappedValuesIter)
    (h1 : 0 ≤ it.pos) (h2 : it.pos ≤ it.len) (h3 : it.len < 2 ^ 31) :
    it.len' = (it.len - it.pos).toNat := by
  unfold FdbMappedValuesIter.len' usizeOfI32
  have h64 : (2 : Int) ^ 64 = 18446744073709551616 := by norm_num
  rw [h64]
  omega

theorem FdbMappedValuesIter.nth_yieldM (it : FdbMappedValuesIter) (n : Nat)
    (h1 : 0 ≤ it.pos) (h2 : it.pos ≤ it.len) (h3 : it.len < 2 ^ 31)
    (hn : (n : Int) < it.len - it.pos) :
    it.nth n = (some (it.pos.toNat + n), ⟨it.len, it.pos + n + 1⟩) := by
  unfold FdbMappedValuesIter.nth
  rw [usizeOfI32_of_range it.pos h1 (by omega)]
  rw [show usizeCheckedAdd it.pos.toNat n = some (it.pos.toNat + n) by
    unfold usizeCheckedAdd; rw [if_pos (by omega)]]
  dsimp only
  rw [usizeOfI32_of_range it.len (by omega) h3]
  rw [if_pos (by omega)]
  rw [i32OfUsize_of_small (it.pos.toNat + n) (by omega)]
  simp only [Prod.mk.injEq, FdbMappedValuesIter.mk.injEq, Option.some.injEq,
    true_and, and_true]
  omega

theorem FdbMappedValuesIter.nth_exhaustM (it : FdbMappedValuesIter) (n : Nat)
    (h1 : 0 ≤ it.pos) (h2 : it.pos ≤ it.len) (h3 : it.len < 2 ^ 31)
    (hn : it.len - it.pos ≤ (n : Int)) :
    it.nth n = (none, ⟨it.len, it.len⟩) := by
  unfold FdbMappedValuesIter.nth
  rw [usizeOfI32_of_range it.pos h1 (by omega)]
  by_cases hc : it.pos.toNat + n < 2 ^ 64
  · rw [show usizeCheckedAdd it.pos.toNat n = some (it.pos.toNat + n) by
      unfold usizeCheckedAdd; rw [if_pos hc]]
    dsimp only
    rw [usizeOfI32_of_range it.len (by omega) h3]
    rw [if_neg (by omega)]
  · rw [show usizeCheckedAdd it.pos.toNat n = none by
      unfold usizeCheckedAdd; rw [if_neg hc]]

theorem FdbMappedValuesIter.nth_back_yieldM (it : FdbMappedValuesIter) (n : Nat)
    (h1 : 0 ≤ it.pos) (h2 : it.pos ≤ it.len) (h3 : it.len < 2 ^ 31)
    (hn : (n : Int) < it.len - it.pos) :
    it.nth_back n =
      (some ((it.len - 1 - n).toNat), ⟨it.len - (1 + n), it.pos⟩) := by
  simp only [FdbMappedValuesIter.nth_back]
  rw [FdbMappedValuesIter.len'_eqM it h1 h2 h3, if_pos (by omega)]
  rw [i32OfUsize_of_small n (by omega)]
  rw [usizeOfI32_of_range (it.len - (1 + n)) (by omega) (by omega)]
  simp only [Prod.mk.injEq, FdbMappedValuesIter.mk.injEq, Option.some.injEq,
    true_and, and_true]
  omega

theorem FdbMappedValuesIter.nth_back_exhaustM (it : FdbMappedValuesIter) (n : Nat)
    (h1 : 0 ≤ it.pos) (h2 : it.pos ≤ it.len) (h3 : it.len < 2 ^ 31)
    (hn : it.len - it.pos ≤ (n : Int)) :
    it.nth_back n = (none, ⟨it.len, it.len⟩) := by
  simp only [FdbMappedValuesIter.nth_back]
  rw [FdbMappedValuesIter.len'_eqM it h1 h2 h3, if_neg (by omega)]

theorem forwardCollectM_range' :
    ∀ (fuel : Nat) (it : FdbMappedValuesIter), 0 ≤ it.pos → it.pos ≤ it.len →
      it.len < 2 ^ 31 → (it.len - it.pos).toNat ≤ fuel →
      forwardCollectM fuel it = List.range' it.pos.toNat (it.len - it.pos).toNat
  | 0, it, h1, h2, h3, hf => by
    have h0 : (it.len - it.pos).toNat = 0 := by omega
    rw [h0]
    rfl
  | fuel + 1, it, h1, h2, h3, hf => by
    by_cases hlt : it.pos < it.len
    · have hnext : it.next = (some it.pos.toNat, ⟨it.len, it.pos + 1⟩) := by
        unfold FdbMappedValuesIter.next
        rw [FdbMappedValuesIter.nth_yieldM it 0 h1 h2 h3 (by omega)]
        simp
      have ih := forwardCollectM_range' fuel ⟨it.len, it.pos + 1⟩
        (show (0 : Int) ≤ it.pos + 1 by omega)
        (show it.pos + 1 ≤ it.len by omega) h3
        (show (it.len - (it.pos + 1)).toNat ≤ fuel by omega)
      simp only [forwardCollectM]
      rw [hnext]
      dsimp only
      rw [ih]
      have e1 : (it.len - it.pos).toNat = (it.len - (it.pos + 1)).toNat + 1 := by
        omega
      have e2 : ((it.pos + 1 : Int)).toNat = it.pos.toNat + 1 := by omega
      rw [e1, List.range'_succ, e2]
    · have hnone : it.next = (none, ⟨it.len, it.len⟩) := by
        unfold FdbMappedValuesIter.next
        exact FdbMappedValuesIter.nth_exhaustM it 0 h1 h2 h3 (by omega)
      have h0 : (it.len - it.pos).toNat = 0 := by omega
      simp only [forwardCollectM]
      rw [hnone, h0]
      rfl

theorem backwardCollectM_range'_rev :
    ∀ (fuel : Nat) (it : FdbMappedValuesIter), 0 ≤ it.pos → it.pos ≤ it.len →
      it.len < 2 ^ 31 → (it.len - it.pos).toNat ≤ fuel →
      backwardCollectM fuel it =
        (List.range' it.pos.toNat (it.len - it.pos).toNat).reverse
  | 0, it, h1, h2, h3, hf => by
    have h0 : (it.len - it.pos).toNat = 0 := by omega
    rw [h0]
    rfl
  | fuel + 1, it, h1, h2, h3, hf => by
    by_cases hlt : it.pos < it.len
    · have hnext : it.next_back = (some ((it.len - 1).toNat), ⟨it.len - 1, it.pos⟩) := by
        unfold FdbMappedValuesIter.next_back
        rw [FdbMappedValuesIter.nth_back_yieldM it 0 h1 h2 h3 (by omega)]
        norm_num
      have ih := backwardCollectM_range'_rev fuel ⟨it.len - 1, it.pos⟩
        (show (0 : Int) ≤ it.pos by omega)
        (show it.pos ≤ it.len - 1 by omega)
        (show it.len - 1 < 2 ^ 31 by omega)
        (show ((it.len - 1) - it.pos).toNat ≤ fuel by omega)
      simp only [backwardCollectM]
      rw [hnext]
      dsimp only
      rw [ih]
      have e1 : (it.len - it.pos).toNat = ((it.len - 1) - it.pos).toNat + 1 := by
        omega
      rw [e1, List.range'_1_concat, List.reverse_append]
      have e2 : it.pos.toNat + ((it.len - 1) - it.pos).toNat = (it.len - 1).toNat := by
        omega
      rw [e2]
      rfl
    · have hnone : it.next_back = (none, ⟨it.len, it.len⟩) := by
        unfold FdbMappedValuesIter.next_back
        exact FdbMappedValuesIter.nth_back_exhaustM it 0 h1 h2 h3 (by omega)
      have h0 : (it.len - it.pos).toNat = 0 := by omega
      simp only [backwardCollectM]
      rw [hnone, h0]
      rfl

theorem runOpsM_spec :
    ∀ (ops : List IterOp) (it : FdbMappedValuesIter), 0 ≤ it.pos →
      it.pos ≤ it.len → it.len < 2 ^ 31 →
      (0 ≤ (runOpsM ops it).1.pos ∧ (runOpsM ops it).1.pos ≤ (runOpsM ops it).1.len ∧
        (runOpsM ops it).1.len < 2 ^ 31) ∧
      (runOpsM ops it).2.1 + (runOpsM ops it).2.2 ≤ (it.len - it.pos).toNat ∧
      ((runOpsM ops it).1.len - (runOpsM ops it).1.pos).toNat =
        (it.len - it.pos).toNat - ((runOpsM ops it).2.1 + (runOpsM ops it).2.2)
  | [], it, h1, h2, h3 => by
    simp only [runOpsM]
    omega
  | IterOp.fwd n :: ops, it, h1, h2, h3 => by
    simp only [runOpsM]
    rw [FdbMappedValuesIter.len'_eqM it h1 h2 h3]
    by_cases hlt : (n : Int) < it.len - it.pos
    · rw [FdbMappedValuesIter.nth_yieldM it n h1 h2 h3 hlt]
      have ih := runOpsM_spec ops ⟨it.len, it.pos + n + 1⟩
        (show (0 : Int) ≤ it.pos + n + 1 by omega)
        (show it.pos + n + 1 ≤ it.len by omega) h3
      dsimp only at ih ⊢
      omega
    · rw [FdbMappedValuesIter.nth_exhaustM it n h1 h2 h3 (by omega)]
      have ih := runOpsM_spec ops ⟨it.len, it.len⟩
        (show (0 : Int) ≤ it.len by omega)
        (show (it.len : Int) ≤ it.len by omega) h3
      dsimp only at ih ⊢
      omega
  | IterOp.bwd n :: ops, it, h1, h2, h3 => by
    simp only [runOpsM]
    rw [FdbMappedValuesIter.len'_eqM it h1 h2 h3]
    by_cases hlt : (n : Int) < it.len - it.pos
    · rw [FdbMappedValuesIter.nth_back_yieldM it n h1 h2 h3 hlt]
      have ih := runOpsM_spec ops ⟨it.len - (1 + n), it.pos⟩ h1
        (show it.pos ≤ it.len - (1 + n) by omega)
        (show it.len - (1 + n) < 2 ^ 31 by omega)
      dsimp only at ih ⊢
      omega
    · rw [FdbMappedValuesIter.nth_back_exhaustM it n h1 h2 h3 (by omega)]
      have ih := runOpsM_spec ops ⟨it.len, it.len⟩
        (show (0 : Int) ≤ it.len by omega)
        (show (it.len : Int) ≤ it.len by omega) h3
      dsimp only at ih ⊢
      omega

/-! ## Bridge lemmas -/

/-- A not-ready poll on a bridge whose wake cell is absent: the cell is
created, the task is registered, the callback is installed. -/
theorem poll_pending_waker_none (e : Int) (ex : Handle → Except FdbError α)
    (cx : Task) (h : Handle) :
    FdbFuture.poll 0 e ex cx ⟨some h, none⟩ =
      (Poll.pending, ⟨some h, some ⟨some cx⟩⟩, [Event.setCallback]) := rfl

/-- A not-ready poll on a bridge whose wake cell exists: the registered
target is overwritten with the current task, no callback is installed. -/
theorem poll_pending_waker_some (e : Int) (ex : Handle → Except FdbError α)
    (cx : Task) (h : Handle) (w : WakeCell) :
    FdbFuture.poll 0 e ex cx ⟨some h, some w⟩ =
      (Poll.pending, ⟨some h, some ⟨some cx⟩⟩, []) := rfl

/-- The wake-cell contents after a sequence of not-ready polls, starting
from a cell holding `w`: each poll overwrites the registered target. -/
def finalCell (w : WakeCell) : List PollInput → WakeCell
  | [] => w
  | i :: is => finalCell ⟨some i.cx⟩ is

theorem finalCell_eq_getLast :
    ∀ (is : List PollInput) (last : PollInput) (w : WakeCell),
      is.getLast? = some last → finalCell w is = ⟨some last.cx⟩
  | [], _, _, hl => by simp at hl
  | [i], last, w, hl => by
    simp at hl
    subst hl
    rfl
  | i :: j :: is, last, w, hl => by
    rw [List.getLast?_cons_cons] at hl
    exact finalCell_eq_getLast (j :: is) last ⟨some i.cx⟩ hl

/-- Running only not-ready polls from a state whose wake cell already
exists: every poll is `Pending`, no foreign call is made, the handle stays
in place, and the cell ends up holding the last poller's task. -/
theorem runPolls_pending_registered (ex : Handle → Except FdbError α) :
    ∀ (is : List PollInput) (h : Handle) (w : WakeCell),
      (∀ i ∈ is, i.isReady = 0) →
      FdbFuture.runPolls ex is ⟨some h, some w⟩ =
        (⟨some h, some (finalCell w is)⟩, [], is.map fun _ => Poll.pending)
  | [], h, w, _ => rfl
  | i :: is, h, w, hall => by
    have h0 : i.isReady = 0 := hall i (List.mem_cons_self i is)
    have hrest : ∀ j ∈ is, j.isReady = 0 := fun j hj =>
      hall j (List.mem_cons_of_mem i hj)
    show
      (let pr := FdbFuture.poll i.isReady i.getError ex i.cx ⟨some h, some w⟩
       let rr := FdbFuture.runPolls ex is pr.2.1
       (rr.1, pr.2.2 ++ rr.2.1, pr.1 :: rr.2.2)) = _
    rw [h0, poll_pending_waker_some i.getError ex i.cx h w]
    dsimp only
    rw [runPolls_pending_registered ex is h ⟨some i.cx⟩ hrest]
    rfl

/-- Running only not-ready polls from a freshly wrapped handle: the first
poll creates the cell and installs the callback, the rest only overwrite
the registered target. -/
theorem runPolls_pending_fresh (ex : Handle → Except FdbError α)
    (i : PollInput) (is : List PollInput) (h : Handle)
    (h0 : i.isReady = 0) (hrest : ∀ j ∈ is, j.isReady = 0) :
    FdbFuture.runPolls ex (i :: is) (FdbFuture.new h) =
      (⟨some h, some (finalCell ⟨some i.cx⟩ is)⟩, [Event.setCallback],
        (i :: is).map fun _ => Poll.pending) := by
  show
    (let pr := FdbFuture.poll i.isReady i.getError ex i.cx (FdbFuture.new h)
     let rr := FdbFuture.runPolls ex is pr.2.1
     (rr.1, pr.2.2 ++ rr.2.1, pr.1 :: rr.2.2)) = _
  rw [h0]
  rw [show FdbFuture.new h = ⟨some h, none⟩ from rfl]
  rw [poll_pending_waker_none i.getError ex i.cx h]
  dsimp only
  rw [runPolls_pending_registered ex is h ⟨some i.cx⟩ hrest]
  rfl

/-! ## Claim theorems: the completion bridge -/

/-- C1: polling an `FdbFuture` whose handle option is already empty (the
terminal, consumed state) faults — the `expect("cannot poll after resolve")`
panics — rather than returning a value or an error. -/
theorem C1_poll_after_resolve_faults (isReady getError : Int)
    (ex : Handle → Except FdbError α) (cx : Task) (s : FdbFuture)
    (hterm : s.f = none) :
    FdbFuture.poll isReady getError ex cx s = (Poll.fault, s, []) := by
  unfold FdbFuture.poll
  rw [hterm]

theorem C1_witness :
    FdbFuture.poll 1 0 unitTryFrom 0 ⟨none, none⟩ =
      (Poll.fault, ⟨none, none⟩, []) :=
  C1_poll_after_resolve_faults 1 0 unitTryFrom 0 ⟨none, none⟩ rfl

/-- C2: a poll of a not-yet-resolved bridge that finds the foreign future
ready returns, for a non-success status, `Ready` with the translated
structured error (the handle is kept); and for a success status it takes
the handle out of the slot (the future becomes terminal) and returns the
extractor's result on that handle — its value or its top-level error. -/
theorem C2_ready_poll_translates_status (isReady getError : Int)
    (ex : Handle → Except FdbError α) (cx : Task) (s : FdbFuture) (h : Handle)
    (hf : s.f = some h) (hready : isReady ≠ 0) :
    (getError ≠ 0 →
      FdbFuture.poll isReady getError ex cx s =
        (Poll.ready (Except.error ⟨getError⟩), s, [])) ∧
    (getError = 0 →
      FdbFuture.poll isReady getError ex cx s =
        (Poll.ready (ex h), { s with f := none }, [])) := by
  refine ⟨fun he => ?_, fun he => ?_⟩
  · unfold FdbFuture.poll error.eval
    rw [hf]
    dsimp only
    rw [if_neg hready, if_neg he]
  · subst he
    unfold FdbFuture.poll error.eval
    rw [hf]
    dsimp only
    rw [if_neg hready, if_pos rfl]

theorem C2_witness :
    (FdbFuture.poll 1 7 unitTryFrom 0 ⟨some 3, none⟩ =
      (Poll.ready (Except.error ⟨7⟩), ⟨some 3, none⟩, [])) ∧
    (FdbFuture.poll 1 0 unitTryFrom 0 ⟨some 3, none⟩ =
      (Poll.ready (Except.ok ()), ⟨none, none⟩, [])) :=
  ⟨(C2_ready_poll_translates_status 1 7 unitTryFrom 0 ⟨some 3, none⟩ 3 rfl
      (by decide)).1 (by decide),
   (C2_ready_poll_translates_status 1 0 unitTryFrom 0 ⟨some 3, none⟩ 3 rfl
      (by decide)).2 rfl⟩

/-- C10: a ready poll with a non-success status does not consume the
handle: the state is returned unchanged (still holding `some h`), so a
subsequent poll does not fault and re-evaluates the same handle, producing
the same translated error again. -/
theorem C10_ready_error_keeps_handle (isReady getError : Int)
    (ex : Handle → Except FdbError α) (cx cx' : Task) (s : FdbFuture)
    (h : Handle) (hf : s.f = some h) (hready : isReady ≠ 0)
    (herr : getError ≠ 0) :
    FdbFuture.poll isReady getError ex cx s =
      (Poll.ready (Except.error ⟨getError⟩), s, []) ∧
    (FdbFuture.poll isReady getError ex cx s).2.1.f = some h ∧
    FdbFuture.poll isReady getError ex cx'
        (FdbFuture.poll isReady getError ex cx s).2.1 =
      (Poll.ready (Except.error ⟨getError⟩), s, []) := by
  have hone :
      FdbFuture.poll isReady getError ex cx s =
        (Poll.ready (Except.error ⟨getError⟩), s, []) := by
    unfold FdbFuture.poll error.eval
    rw [hf]
    dsimp only
    rw [if_neg hready, if_neg herr]
  have hone' :
      FdbFuture.poll isReady getError ex cx' s =
        (Poll.ready (Except.error ⟨getError⟩), s, []) := by
    unfold FdbFuture.poll error.eval
    rw [hf]
    dsimp only
    rw [if_neg hready, if_neg herr]
  refine ⟨hone, ?_, ?_⟩
  · rw [hone]
    exact hf
  · rw [hone]
    exact hone'

theorem C10_witness :
    FdbFuture.poll 1 7 unitTryFrom 0 ⟨some 3, none⟩ =
      (Poll.ready (Except.error ⟨7⟩), ⟨some 3, none⟩, []) ∧
    (FdbFuture.poll 1 7 unitTryFrom 0 ⟨some 3, none⟩).2.1.f = some 3 ∧
    FdbFuture.poll 1 7 unitTryFrom 1
        (FdbFuture.poll 1 7 unitTryFrom 0 ⟨some 3, none⟩).2.1 =
      (Poll.ready (Except.error ⟨7⟩), ⟨some 3, none⟩, []) :=
  C10_ready_error_keeps_handle 1 7 unitTryFrom 0 1 ⟨some 3, none⟩ 3 rfl
    (by decide) (by decide)

/-- C3: over any nonempty sequence of polls that all find the foreign
future not ready, starting from a freshly wrapped handle: every poll
returns `Pending`; the wake cell is created lazily by the first such poll
and `fdb_future_set_callback` is invoked exactly once, on that first poll
(the whole event trace is that single installation); and every poll
overwrites the registered wake target, so the cell finally holds the last
poller's task. -/
theorem C3_pending_poll_protocol (is : List PollInput) (last : PollInput)
    (h : Handle) (ex : Handle → Except FdbError α)
    (hlast : is.getLast? = some last) (hall : ∀ i ∈ is, i.isReady = 0) :
    FdbFuture.runPolls ex is (FdbFuture.new h) =
      (⟨some h, some ⟨some last.cx⟩⟩, [Event.setCallback],
        is.map fun _ => Poll.pending) := by
  match is, hlast with
  | i :: is', hlast =>
    have h0 : i.isReady = 0 := hall i (List.mem_cons_self i is')
    have hrest : ∀ j ∈ is', j.isReady = 0 := fun j hj =>
      hall j (List.mem_cons_of_mem i hj)
    rw [runPolls_pending_fresh ex i is' h h0 hrest]
    rw [show finalCell ⟨some i.cx⟩ is' = ⟨some last.cx⟩ from
      finalCell_eq_getLast (i :: is') last ⟨none⟩ hlast]

theorem C3_witness :
    FdbFuture.runPolls unitTryFrom [⟨0, 0, 4⟩, ⟨0, 0, 9⟩] (FdbFuture.new 7) =
      (⟨some 7, some ⟨some 9⟩⟩, [Event.setCallback],
        [Poll.pending, Poll.pending]) :=
  C3_pending_poll_protocol [⟨0, 0, 4⟩, ⟨0, 0, 9⟩] ⟨0, 0, 9⟩ 7 unitTryFrom rfl
    (by decide)

/-- C7: a bridge dropped while still pending releases the foreign handle
exactly once: however many not-ready polls preceded the drop, the polls
make no `fdb_future_destroy` call and leave the handle in the slot, and the
drop then destroys it, for a total of exactly one destroy call. -/
theorem C7_drop_pending_destroys_once (is : List PollInput) (h : Handle)
    (ex : Handle → Except FdbError α)
    (hall : ∀ i ∈ is, i.isReady = 0) :
    countDestroy ((FdbFuture.runPolls ex is (FdbFuture.new h)).2.1 ++
      (FdbFuture.runPolls ex is (FdbFuture.new h)).1.dropEvents) = 1 := by
  cases is with
  | nil => rfl
  | cons i is' =>
    have h0 : i.isReady = 0 := hall i (List.mem_cons_self i is')
    have hrest : ∀ j ∈ is', j.isReady = 0 := fun j hj =>
      hall j (List.mem_cons_of_mem i hj)
    rw [runPolls_pending_fresh ex i is' h h0 hrest]
    rfl

/-- `size_hint` agrees with the exact-length query on every state. -/
theorem size_hint_eq_len' (it : FdbValuesIter) :
    it.size_hint = (it.len', some it.len') := rfl

/-- `size_hint` agrees with the exact-length query, mapped variant. -/
theorem size_hint_eq_len'M (it : FdbMappedValuesIter) :
    it.size_hint = (it.len', some it.len') := rfl

/-- Collecting a fresh plain iterator forward gives `0, …, N-1`, and
backward gives the reverse. -/
theorem collect_fwd_bwd (N : Int) (h0 : 0 ≤ N) (h1 : N < 2 ^ 31)
    (fuel : Nat) (hfuel : N.toNat ≤ fuel) :
    forwardCollect fuel ⟨N, 0⟩ = List.range N.toNat ∧
    backwardCollect fuel ⟨N, 0⟩ = (List.range N.toNat).reverse := by
  have e : ((⟨N, 0⟩ : FdbValuesIter).len - (⟨N, 0⟩ : FdbValuesIter).pos).toNat
      = N.toNat := by
    dsimp only
    omega
  constructor
  · have hf := forwardCollect_range' fuel ⟨N, 0⟩
      (show (0 : Int) ≤ 0 from le_refl 0) (show (0 : Int) ≤ N from h0)
      (show N < 2 ^ 31 from h1) (show (N - 0).toNat ≤ fuel by omega)
    rw [hf, e, List.range_eq_range']
    rfl
  · have hb := backwardCollect_range'_rev fuel ⟨N, 0⟩
      (show (0 : Int) ≤ 0 from le_refl 0) (show (0 : Int) ≤ N from h0)
      (show N < 2 ^ 31 from h1) (show (N - 0).toNat ≤ fuel by omega)
    rw [hb, e, List.range_eq_range']
    rfl

/-- Collecting a fresh mapped iterator forward gives `0, …, N-1`, and
backward gives the reverse. -/
theorem collect_fwd_bwdM (N : Int) (h0 : 0 ≤ N) (h1 : N < 2 ^ 31)
    (fuel : Nat) (hfuel : N.toNat ≤ fuel) :
    forwardCollectM fuel ⟨N, 0⟩ = List.range N.toNat ∧
    backwardCollectM fuel ⟨N, 0⟩ = (List.range N.toNat).reverse := by
  have e : ((⟨N, 0⟩ : FdbMappedValuesIter).len -
      (⟨N, 0⟩ : FdbMappedValuesIter).pos).toNat = N.toNat := by
    dsimp only
    omega
  constructor
  · have hf := forwardCollectM_range' fuel ⟨N, 0⟩
      (show (0 : Int) ≤ 0 from le_refl 0) (show (0 : Int) ≤ N from h0)
      (show N < 2 ^ 31 from h1) (show (N - 0).toNat ≤ fuel by omega)
    rw [hf, e, List.range_eq_range']
    rfl
  · have hb := backwardCollectM_range'_rev fuel ⟨N, 0⟩
      (show (0 : Int) ≤ 0 from le_refl 0) (show (0 : Int) ≤ N from h0)
      (show N < 2 ^ 31 from h1) (show (N - 0).toNat ≤ fuel by omega)
    rw [hb, e, List.range_eq_range']
    rfl

/-! ## Claim theorems: iterators -/

/-- C4: for an iterator over `N` rows — plain or mapped — repeated `next`
yields the row offsets `0, …, N-1` in array order and then nothing, repeated
`next_back` yields `N-1, …, 0` and then nothing, and collecting forward and
reversing equals collecting backward. -/
theorem C4_forward_reverse_eq_backward (v : FdbValues) (m : MappedKeyValues)
    (hv0 : 0 ≤ v.len) (hv1 : v.len < 2 ^ 31)
    (hm0 : 0 ≤ m.len) (hm1 : m.len < 2 ^ 31) :
    (forwardCollect (v.len.toNat + 1) v.into_iter = List.range v.len.toNat ∧
     backwardCollect (v.len.toNat + 1) v.into_iter =
       (List.range v.len.toNat).reverse ∧
     (forwardCollect (v.len.toNat + 1) v.into_iter).reverse =
       backwardCollect (v.len.toNat + 1) v.into_iter) ∧
    (forwardCollectM (m.len.toNat + 1) m.into_iter = List.range m.len.toNat ∧
     backwardCollectM (m.len.toNat + 1) m.into_iter =
       (List.range m.len.toNat).reverse ∧
     (forwardCollectM (m.len.toNat + 1) m.into_iter).reverse =
       backwardCollectM (m.len.toNat + 1) m.into_iter) := by
  rw [show v.into_iter = (⟨v.len, 0⟩ : FdbValuesIter) from rfl]
  rw [show m.into_iter = (⟨m.len, 0⟩ : FdbMappedValuesIter) from rfl]
  obtain ⟨hvf, hvb⟩ := collect_fwd_bwd v.len hv0 hv1 (v.len.toNat + 1)
    (by omega)
  obtain ⟨hmf, hmb⟩ := collect_fwd_bwdM m.len hm0 hm1 (m.len.toNat + 1)
    (by omega)
  refine ⟨⟨hvf, hvb, ?_⟩, ⟨hmf, hmb, ?_⟩⟩
  · rw [hvf, hvb]
  · rw [hmf, hmb]

theorem C4_witness :
    (forwardCollect 4 (FdbValues.into_iter ⟨0, 0, 3, false⟩) =
       List.range 3 ∧
     backwardCollect 4 (FdbValues.into_iter ⟨0, 0, 3, false⟩) =
       (List.range 3).reverse ∧
     (forwardCollect 4 (FdbValues.into_iter ⟨0, 0, 3, false⟩)).reverse =
       backwardCollect 4 (FdbValues.into_iter ⟨0, 0, 3, false⟩)) ∧
    (forwardCollectM 3 (MappedKeyValues.into_iter ⟨0, 0, 2, true⟩) =
       List.range 2 ∧
     backwardCollectM 3 (MappedKeyValues.into_iter ⟨0, 0, 2, true⟩) =
       (List.range 2).reverse ∧
     (forwardCollectM 3 (MappedKeyValues.into_iter ⟨0, 0, 2, true⟩)).reverse =
       backwardCollectM 3 (MappedKeyValues.into_iter ⟨0, 0, 2, true⟩)) :=
  C4_forward_reverse_eq_backward ⟨0, 0, 3, false⟩ ⟨0, 0, 2, true⟩
    (by norm_num) (by norm_num) (by norm_num) (by norm_num)

/-- C5: after any interleaving of forward (`next`/`nth`) and backward
(`next_back`/`nth_back`) consumption on an iterator over `N` rows — plain
or mapped — the exact remaining count reported by `len` and by `size_hint`
equals `N` minus the elements consumed from the front minus the elements
consumed from the back. -/
theorem C5_remaining_len_invariant (v : FdbValues) (m : MappedKeyValues)
    (ops : List IterOp)
    (hv0 : 0 ≤ v.len) (hv1 : v.len < 2 ^ 31)
    (hm0 : 0 ≤ m.len) (hm1 : m.len < 2 ^ 31) :
    ((runOps ops v.into_iter).1.len' =
       v.len.toNat -
         ((runOps ops v.into_iter).2.1 + (runOps ops v.into_iter).2.2) ∧
     (runOps ops v.into_iter).2.1 + (runOps ops v.into_iter).2.2 ≤
       v.len.toNat ∧
     (runOps ops v.into_iter).1.size_hint =
       ((runOps ops v.into_iter).1.len',
         some (runOps ops v.into_iter).1.len')) ∧
    ((runOpsM ops m.into_iter).1.len' =
       m.len.toNat -
         ((runOpsM ops m.into_iter).2.1 + (runOpsM ops m.into_iter).2.2) ∧
     (runOpsM ops m.into_iter).2.1 + (runOpsM ops m.into_iter).2.2 ≤
       m.len.toNat ∧
     (runOpsM ops m.into_iter).1.size_hint =
       ((runOpsM ops m.into_iter).1.len',
         some (runOpsM ops m.into_iter).1.len')) := by
  rw [show v.into_iter = (⟨v.len, 0⟩ : FdbValuesIter) from rfl]
  rw [show m.into_iter = (⟨m.len, 0⟩ : FdbMappedValuesIter) from rfl]
  obtain ⟨⟨i1, i2, i3⟩, hle, heq⟩ := runOps_spec ops ⟨v.len, 0⟩
    (show (0 : Int) ≤ 0 from le_refl 0) (show (0 : Int) ≤ v.len from hv0)
    (show v.len < 2 ^ 31 from hv1)
  obtain ⟨⟨j1, j2, j3⟩, hleM, heqM⟩ := runOpsM_spec ops ⟨m.len, 0⟩
    (show (0 : Int) ≤ 0 from le_refl 0) (show (0 : Int) ≤ m.len from hm0)
    (show m.len < 2 ^ 31 from hm1)
  dsimp only at hle heq hleM heqM
  refine ⟨⟨?_, ?_, size_hint_eq_len' _⟩, ⟨?_, ?_, size_hint_eq_len'M _⟩⟩
  · rw [FdbValuesIter.len'_eq _ i1 i2 i3]
    omega
  · omega
  · rw [FdbMappedValuesIter.len'_eqM _ j1 j2 j3]
    omega
  · omega

theorem C5_witness :
    ((runOps [IterOp.fwd 1, IterOp.bwd 0, IterOp.fwd 0]
        (FdbValues.into_iter ⟨0, 0, 5, false⟩)).1.len' =
       5 - ((runOps [IterOp.fwd 1, IterOp.bwd 0, IterOp.fwd 0]
              (FdbValues.into_iter ⟨0, 0, 5, false⟩)).2.1 +
            (runOps [IterOp.fwd 1, IterOp.bwd 0, IterOp.fwd 0]
              (FdbValues.into_iter ⟨0, 0, 5, false⟩)).2.2) ∧
     (runOps [IterOp.fwd 1, IterOp.bwd 0, IterOp.fwd 0]
        (FdbValues.into_iter ⟨0, 0, 5, false⟩)).2.1 +
       (runOps [IterOp.fwd 1, IterOp.bwd 0, IterOp.fwd 0]
          (FdbValues.into_iter ⟨0, 0, 5, false⟩)).2.2 ≤ 5 ∧
     (runOps [IterOp.fwd 1, IterOp.bwd 0, IterOp.fwd 0]
        (FdbValues.into_iter ⟨0, 0, 5, false⟩)).1.size_hint =
       ((runOps [IterOp.fwd 1, IterOp.bwd 0, IterOp.fwd 0]
           (FdbValues.into_iter ⟨0, 0, 5, false⟩)).1.len',
         some (runOps [IterOp.fwd 1, IterOp.bwd 0, IterOp.fwd 0]
           (FdbValues.into_iter ⟨0, 0, 5, false⟩)).1.len')) ∧
    ((runOpsM [IterOp.fwd 1, IterOp.bwd 0, IterOp.fwd 0]
        (MappedKeyValues.into_iter ⟨0, 0, 3, true⟩)).1.len' =
       3 - ((runOpsM [IterOp.fwd 1, IterOp.bwd 0, IterOp.fwd 0]
              (MappedKeyValues.into_iter ⟨0, 0, 3, true⟩)).2.1 +
            (runOpsM [IterOp.fwd 1, IterOp.bwd 0, IterOp.fwd 0]
              (MappedKeyValues.into_iter ⟨0, 0, 3, true⟩)).2.2) ∧
     (runOpsM [IterOp.fwd 1, IterOp.bwd 0, IterOp.fwd 0]
        (MappedKeyValues.into_iter ⟨0, 0, 3, true⟩)).2.1 +
       (runOpsM [IterOp.fwd 1, IterOp.bwd 0, IterOp.fwd 0]
          (MappedKeyValues.into_iter ⟨0, 0, 3, true⟩)).2.2 ≤ 3 ∧
     (runOpsM [IterOp.fwd 1, IterOp.bwd 0, IterOp.fwd 0]
        (MappedKeyValues.into_iter ⟨0, 0, 3, true⟩)).1.size_hint =
       ((runOpsM [IterOp.fwd 1, IterOp.bwd 0, IterOp.fwd 0]
           (MappedKeyValues.into_iter ⟨0, 0, 3, true⟩)).1.len',
         some (runOpsM [IterOp.fwd 1, IterOp.bwd 0, IterOp.fwd 0]
           (MappedKeyValues.into_iter ⟨0, 0, 3, true⟩)).1.len')) :=
  C5_remaining_len_invariant ⟨0, 0, 5, false⟩ ⟨0, 0, 3, true⟩
    [IterOp.fwd 1, IterOp.bwd 0, IterOp.fwd 0]
    (by norm_num) (by norm_num) (by norm_num) (by norm_num)

/-! ## Claim theorems: result views -/

/-- C6: for both `FdbValues` and `MappedKeyValues`, extraction from a
completed handle stores `more: more != 0`, so the `more()` query returns
`true` exactly when the raw continuation flag written by the foreign
accessor was non-zero. -/
theorem C6_more_equals_raw_flag (fh fh' : Handle)
    (out outM : KeyvalueArrayOut) (hok : out.err = 0) (hokM : outM.err = 0) :
    (∃ v : FdbValues, FdbValues.try_from fh out = Except.ok v ∧
      (v.more = true ↔ out.more ≠ 0)) ∧
    (∃ m : MappedKeyValues, MappedKeyValues.try_from fh' outM = Except.ok m ∧
      (m.more = true ↔ outM.more ≠ 0)) := by
  constructor
  · refine ⟨⟨fh, out.keyvalues, out.len, decide (out.more ≠ 0)⟩, ?_, ?_⟩
    · unfold FdbValues.try_from error.eval
      rw [hok, if_pos rfl]
    · simp
  · refine ⟨⟨fh', outM.keyvalues, outM.len, decide (outM.more ≠ 0)⟩, ?_, ?_⟩
    · unfold MappedKeyValues.try_from error.eval
      rw [hokM, if_pos rfl]
    · simp

theorem C6_witness :
    ((∃ v : FdbValues, FdbValues.try_from 3 ⟨0, 100, 2, 1⟩ = Except.ok v ∧
        (v.more = true ↔ (1 : Int) ≠ 0)) ∧
      (∃ m : MappedKeyValues,
        MappedKeyValues.try_from 4 ⟨0, 200, 5, 0⟩ = Except.ok m ∧
        (m.more = true ↔ (0 : Int) ≠ 0))) :=
  C6_more_equals_raw_flag 3 4 ⟨0, 100, 2, 1⟩ ⟨0, 200, 5, 0⟩ rfl rfl

/-- C8: each of the four reinterpreting `Deref` impls (key-value list,
address list, key list, mapped key-value list) checks that the local and
foreign element types agree in size and in alignment, and if either
assertion fails it hard-faults without producing any reinterpreted slice. -/
theorem C8_layout_guard_blocks_deref (localL foreignL : Layout)
    (hmis : localL.size ≠ foreignL.size ∨ localL.align ≠ foreignL.align)
    (v : FdbValues) (a : FdbAddresses) (k : FdbKeys) (m : MappedKeyValues) :
    FdbValues.deref localL foreignL v = DerefResult.layoutFault ∧
    FdbAddresses.deref localL foreignL a = DerefResult.layoutFault ∧
    FdbKeys.deref localL foreignL k = DerefResult.layoutFault ∧
    MappedKeyValues.deref localL foreignL m = DerefResult.layoutFault := by
  unfold FdbValues.deref FdbAddresses.deref FdbKeys.deref MappedKeyValues.deref
  rcases hmis with hs | ha
  · rw [if_neg hs, if_neg hs, if_neg hs, if_neg hs]
    exact ⟨rfl, rfl, rfl, rfl⟩
  · by_cases hs : localL.size = foreignL.size
    · rw [if_pos hs, if_pos hs, if_pos hs, if_pos hs,
        if_neg ha, if_neg ha, if_neg ha, if_neg ha]
      exact ⟨rfl, rfl, rfl, rfl⟩
    · rw [if_neg hs, if_neg hs, if_neg hs, if_neg hs]
      exact ⟨rfl, rfl, rfl, rfl⟩

theorem C8_witness :
    FdbValues.deref ⟨48, 8⟩ ⟨40, 8⟩ ⟨1, 10, 3, false⟩ =
      DerefResult.layoutFault ∧
    FdbAddresses.deref ⟨48, 8⟩ ⟨40, 8⟩ ⟨2, 20, 4⟩ = DerefResult.layoutFault ∧
    FdbKeys.deref ⟨48, 8⟩ ⟨40, 8⟩ ⟨3, 30, 5⟩ = DerefResult.layoutFault ∧
    MappedKeyValues.deref ⟨48, 8⟩ ⟨40, 8⟩ ⟨4, 40, 6, true⟩ =
      DerefResult.layoutFault :=
  C8_layout_guard_blocks_deref ⟨48, 8⟩ ⟨40, 8⟩ (Or.inl (by decide))
    ⟨1, 10, 3, false⟩ ⟨2, 20, 4⟩ ⟨3, 30, 5⟩ ⟨4, 40, 6, true⟩

/-- C9: extracting a completed handle as `Option<FdbSlice>` with a success
status yields `None` exactly when the accessor's present/absent
discriminant is zero, and otherwise `Some` slice carrying exactly the
accessor's pointer and length and owning the handle. -/
theorem C9_optional_buffer_extraction (fh : Handle) (out : GetValueOut)
    (hok : out.err = 0) :
    (FdbSlice.opt_try_from fh out = Except.ok none ↔ out.present = 0) ∧
    (out.present ≠ 0 →
      FdbSlice.opt_try_from fh out =
        Except.ok (some ⟨fh, out.value, out.len⟩)) := by
  have hbase :
      FdbSlice.opt_try_from fh out =
        Except.ok
          (if out.present = 0 then none
           else some ⟨fh, out.value, out.len⟩) := by
    unfold FdbSlice.opt_try_from error.eval
    rw [hok, if_pos rfl]
  constructor
  · rw [hbase]
    constructor
    · intro hnone
      by_contra hp
      rw [if_neg hp] at hnone
      simp at hnone
    · intro hp
      rw [if_pos hp]
  · intro hp
    rw [hbase, if_neg hp]

theorem C9_witness :
    (FdbSlice.opt_try_from 3 ⟨0, 1, 500, 12⟩ = Except.ok none ↔
      (1 : Int) = 0) ∧
    ((1 : Int) ≠ 0 →
      FdbSlice.opt_try_from 3 ⟨0, 1, 500, 12⟩ =
        Except.ok (some ⟨3, 500, 12⟩)) :=
  C9_optional_buffer_extraction 3 ⟨0, 1, 500, 12⟩ rfl

theorem C7_witness :
    countDestroy
      ((FdbFuture.runPolls unitTryFrom [⟨0, 0, 4⟩, ⟨0, 0, 9⟩]
          (FdbFuture.new 7)).2.1 ++
        (FdbFuture.runPolls unitTryFrom [⟨0, 0, 4⟩, ⟨0, 0, 9⟩]
          (FdbFuture.new 7)).1.dropEvents) = 1 :=
  C7_drop_pending_destroys_once [⟨0, 0, 4⟩, ⟨0, 0, 9⟩] 7 unitTryFrom (by decide)

end FdbRs
